import Mathlib

/-!
Shallow embedding of `src/tree.hpp` (an STL-like tree container).

A C++ `node<T>` derives from `std::list<node<T>>` (its list of children) and
adds a payload `data_ : T`.  We model a node as an inductive type holding the
payload and the ordered list of children.  The raw node pointers held by the
iterators are modelled by the nodes they point to (value semantics); the null
pointer that `operator->` returns on an exhausted iterator is modelled by
`none`.  This value model of the pointer comparison in `operator!=` is exact
whenever one side is an end iterator, which is the only way the comparison is
used in the claims below: the null pointer corresponds to `none` and only to
`none`.
-/

namespace StlTree

variable {α : Type}

/-- `node<T>` (tree.hpp line 53): a payload `data_` plus the ordered list of
children (the `std::list<node<T>>` base subobject). -/
inductive node (α : Type) : Type
  | mk : α → List (node α) → node α

/-- `data()` / `const_data()` (lines 73-83): the payload of a node. -/
def node.data : node α → α
  | .mk d _ => d

/-- The children sequence (the `std::list` base of `node`; `begin()`/`end()`
iterate it in order, `rbegin()`/`rend()` in reverse). -/
def node.children : node α → List (node α)
  | .mk _ cs => cs

mutual

/-- Number of nodes in the subtree rooted at `n`: the node itself and all of
its descendants. -/
def node.size : node α → Nat
  | .mk _ cs => 1 + sizeList cs

/-- Total number of nodes in the subtrees rooted at the nodes of a list. -/
def sizeList : List (node α) → Nat
  | [] => 0
  | c :: rest => c.size + sizeList rest

end

mutual

/-- Left-to-right pre-order of a subtree: the node itself, then the pre-orders
of its children in order.  This is the specification-side description of
depth-first order, written by structural recursion. -/
def preorder : node α → List (node α)
  | .mk d cs => .mk d cs :: preorderList cs

/-- Concatenation of the pre-orders of a list of subtrees. -/
def preorderList : List (node α) → List (node α)
  | [] => []
  | c :: rest => preorder c ++ preorderList rest

end

/-- The nodes at depth `d` below a list of roots (each root itself is at
depth 0): peeling one level replaces every node by its children. -/
def nodes_at_depth_list : Nat → List (node α) → List (node α)
  | 0, l => l
  | d + 1, l => nodes_at_depth_list d (l.flatMap node.children)

/-- The nodes at depth `d` of the subtree rooted at `n` (`n` is at depth 0). -/
def node.nodes_at_depth (n : node α) (d : Nat) : List (node α) :=
  nodes_at_depth_list d [n]

/-- Level order of a forest, as the specification describes it: the roots
first (one level), then, level by level, all of their children in order.
`l.flatMap node.children` is exactly the next level. -/
def levels : List (node α) → List (node α)
  | [] => []
  | t :: rest => (t :: rest) ++ levels ((t :: rest).flatMap node.children)
termination_by l => sizeList l
decreasing_by
  have hsz : ∀ (c : node α), c.size = 1 + sizeList c.children := by
    intro c; cases c; simp [node.size, node.children]
  have hap : ∀ (xs ys : List (node α)), sizeList (xs ++ ys) = sizeList xs + sizeList ys := by
    intro xs ys
    induction xs with
    | nil => simp [sizeList]
    | cons c cs ih => simp [sizeList, ih]; omega
  have hbd : ∀ (xs : List (node α)),
      sizeList (xs.flatMap node.children) + xs.length = sizeList xs := by
    intro xs
    induction xs with
    | nil => simp [sizeList]
    | cons c cs ih => simp [sizeList, hap] at *; rw [hsz c]; omega
  have key : ∀ (xs : List (node α)), xs ≠ [] →
      sizeList (xs.flatMap node.children) < sizeList xs := by
    intro xs hne
    have h := hbd xs
    cases xs with
    | nil => exact absurd rfl hne
    | cons c cs => rw [List.length_cons] at h; omega
  apply key
  simp

/-- Member `operator==(const node_type&)` (lines 85-88), also the body of the
free `operator==(const node<T>&, const node<T>&)` (lines 280-284): two nodes
compare equal iff their payloads do; children take no part. -/
def node.eq_op [DecidableEq α] (a b : node α) : Bool :=
  decide (a.data = b.data)

/-- Member `operator==(const value_type&)` (lines 90-93): a node compares
equal to a plain value iff its payload equals the value. -/
def node.eq_val [DecidableEq α] (a : node α) (v : α) : Bool :=
  decide (a.data = v)

/-- Free `operator<` (lines 274-278): payload comparison only. -/
def node.lt_op [LT α] (a b : node α) : Prop :=
  a.data < b.data

/-- `node::dfs_iterator` (lines 96-159): its whole state is `stack_`, a
`std::stack` of node pointers.  Head of the list = top of the stack. -/
structure dfs_iterator (α : Type) : Type where
  stack_ : List (node α)

/-- `dfs_begin()` (lines 161-164), via the private constructor
`dfs_iterator(node_type&)` (lines 101-104): a stack holding the root only. -/
def node.dfs_begin (n : node α) : dfs_iterator α :=
  ⟨[n]⟩

/-- `dfs_end()` (lines 166-169), via the public default constructor
(lines 110-113): an empty stack. -/
def dfs_end : dfs_iterator α :=
  ⟨[]⟩

/-- `dfs_iterator::operator++` (lines 115-132): if the stack is non-empty,
pop the top node and push its children in reverse order (`rbegin()` to
`rend()`), so the first child ends nearest the top; the resulting stack,
top first, is `children ++ rest`.  An empty stack stays empty. -/
def dfs_iterator.inc : dfs_iterator α → dfs_iterator α
  | ⟨[]⟩ => ⟨[]⟩
  | ⟨t :: rest⟩ => ⟨t.children ++ rest⟩

/-- `dfs_iterator::operator->` (lines 134-140): the top of the stack, or the
null pointer (`none`) when the stack is empty. -/
def dfs_iterator.arrow : dfs_iterator α → Option (node α)
  | ⟨[]⟩ => none
  | ⟨t :: _⟩ => some t

/-- The precondition under which `dfs_iterator::operator*` (lines 142-145)
is defined: it calls `stack_.top()` with no emptiness check, and
`std::stack::top()` requires a non-empty stack. -/
def dfs_iterator.star_ok (it : dfs_iterator α) : Prop :=
  it.stack_ ≠ []

/-- `dfs_iterator::operator*` (lines 142-145) where it is defined: the node
on top of the stack. -/
def dfs_iterator.star (it : dfs_iterator α) (h : it.star_ok) : node α :=
  it.stack_.head h

/-- `dfs_iterator::operator!=` (lines 147-150): compares the two
`operator->` results. -/
def dfs_iterator.iter_ne (a b : dfs_iterator α) : Prop :=
  a.arrow ≠ b.arrow

/-- `dfs_iterator::operator==` (lines 152-155): the negation of
`operator!=`. -/
def dfs_iterator.iter_eq (a b : dfs_iterator α) : Prop :=
  ¬ a.iter_ne b

/-- The sequence of nodes a DFS iterator yields: dereference (`operator->`
on a non-empty stack is the top) then advance (`operator++`), until the
iterator compares equal to `dfs_end()` (null `operator->`, i.e. empty
stack). -/
def dfs_iterator.visit : dfs_iterator α → List (node α)
  | ⟨[]⟩ => []
  | ⟨t :: rest⟩ => t :: dfs_iterator.visit ⟨t.children ++ rest⟩
termination_by it => sizeList it.stack_
decreasing_by
  have hsz : ∀ (c : node α), c.size = 1 + sizeList c.children := by
    intro c; cases c; simp [node.size, node.children]
  have hap : ∀ (xs ys : List (node α)), sizeList (xs ++ ys) = sizeList xs + sizeList ys := by
    intro xs ys
    induction xs with
    | nil => simp [sizeList]
    | cons c cs ih => simp [sizeList, ih]; omega
  simp [sizeList, hap]
  rw [hsz t]
  omega

/-- `node::bfs_iterator` (lines 172-233): its whole state is `queue_`, a
`std::queue` of node pointers.  Head of the list = front of the queue;
pushes go to the back. -/
structure bfs_iterator (α : Type) : Type where
  queue_ : List (node α)

/-- `bfs_begin()` (lines 235-238), via the private constructor
`bfs_iterator(const node_type&)` (lines 177-180): a queue holding the root
only. -/
def node.bfs_begin (n : node α) : bfs_iterator α :=
  ⟨[n]⟩

/-- `bfs_end()` (lines 240-243), via the public default constructor
(lines 184-187): an empty queue. -/
def bfs_end : bfs_iterator α :=
  ⟨[]⟩

/-- `bfs_iterator::operator++` (lines 189-206): if the queue is non-empty,
pop the front node and push its children at the back in their original
left-to-right order.  An empty queue stays empty. -/
def bfs_iterator.inc : bfs_iterator α → bfs_iterator α
  | ⟨[]⟩ => ⟨[]⟩
  | ⟨t :: rest⟩ => ⟨rest ++ t.children⟩

/-- `bfs_iterator::operator->` (lines 208-214): the front of the queue, or
the null pointer (`none`) when the queue is empty. -/
def bfs_iterator.arrow : bfs_iterator α → Option (node α)
  | ⟨[]⟩ => none
  | ⟨t :: _⟩ => some t

/-- The precondition under which `bfs_iterator::operator*` (lines 216-219)
is defined: it calls `queue_.front()` with no emptiness check, and
`std::queue::front()` requires a non-empty queue. -/
def bfs_iterator.star_ok (it : bfs_iterator α) : Prop :=
  it.queue_ ≠ []

/-- `bfs_iterator::operator*` (lines 216-219) where it is defined: the node
at the front of the queue. -/
def bfs_iterator.star (it : bfs_iterator α) (h : it.star_ok) : node α :=
  it.queue_.head h

/-- `bfs_iterator::operator!=` (lines 221-224): compares the two
`operator->` results. -/
def bfs_iterator.iter_ne (a b : bfs_iterator α) : Prop :=
  a.arrow ≠ b.arrow

/-- `bfs_iterator::operator==` (lines 226-229): the negation of
`operator!=`. -/
def bfs_iterator.iter_eq (a b : bfs_iterator α) : Prop :=
  ¬ a.iter_ne b

/-- The sequence of nodes a BFS iterator yields: dereference (front of the
queue) then advance (`operator++`), until the iterator compares equal to
`bfs_end()` (null `operator->`, i.e. empty queue). -/
def bfs_iterator.visit : bfs_iterator α → List (node α)
  | ⟨[]⟩ => []
  | ⟨t :: rest⟩ => t :: bfs_iterator.visit ⟨rest ++ t.children⟩
termination_by it => sizeList it.queue_
decreasing_by
  have hsz : ∀ (c : node α), c.size = 1 + sizeList c.children := by
    intro c; cases c; simp [node.size, node.children]
  have hap : ∀ (xs ys : List (node α)), sizeList (xs ++ ys) = sizeList xs + sizeList ys := by
    intro xs ys
    induction xs with
    | nil => simp [sizeList]
    | cons c cs ih => simp [sizeList, ih]; omega
  simp [sizeList, hap]
  rw [hsz t]
  omega

/-- `contains` (lines 245-248): `std::find(begin(), end(), data)` over the
direct children, comparing each child to the value with member
`operator==(const value_type&)`; true iff the find succeeds. -/
def node.contains [DecidableEq α] (n : node α) (v : α) : Bool :=
  n.children.any (fun c => c.eq_val v)

/-- `contains_recursive` (lines 250-253): `std::find(bfs_begin(), bfs_end(),
data)` — walk the whole subtree in level order, comparing each visited node
to the value with member `operator==(const value_type&)`; true iff the find
succeeds. -/
def node.contains_recursive [DecidableEq α] (n : node α) (v : α) : Bool :=
  (n.bfs_begin).visit.any (fun c => c.eq_val v)

mutual

/-- `remove_recursive` (lines 255-268): first recurse into every direct
child in order, summing the counts; then `this->remove(data)`, which is
`std::list::remove` with the value converted to a childless `node(data)` and
compared to each direct child by member `operator==(const node_type&)` —
it erases every direct child whose payload equals `data`; the number erased
is observed as the difference of `size()` before and after and added to the
sum. -/
def node.remove_recursive [DecidableEq α] (v : α) : node α → node α × Nat
  | .mk d cs =>
    let rl := remove_recursive_list v cs
    let kept := rl.1.filter (fun c => ! c.eq_op (node.mk v []))
    (node.mk d kept, rl.2 + (rl.1.length - kept.length))

/-- The child loop of `remove_recursive` (lines 258-263): each child is
processed in place, left to right, and the counts are summed. -/
def remove_recursive_list [DecidableEq α] (v : α) : List (node α) → List (node α) × Nat
  | [] => ([], 0)
  | c :: rest =>
    let rc := node.remove_recursive v c
    let rr := remove_recursive_list v rest
    (rc.1 :: rr.1, rc.2 + rr.2)

end

mutual

/-- Specification-side description of `remove_recursive`'s effect on the
tree: the root always stays; of the children, exactly those whose value
differs from `v` are kept, in their original order, each pruned recursively
in turn (a removed child takes its whole subtree with it). -/
def prune [DecidableEq α] (v : α) : node α → node α
  | .mk d cs => .mk d (pruneList v cs)

/-- `prune` over a children list: drop the matching roots, keep and prune
the others in order. -/
def pruneList [DecidableEq α] (v : α) : List (node α) → List (node α)
  | [] => []
  | c :: rest =>
    if c.data = v then pruneList v rest else prune v c :: pruneList v rest

end

/-- Free `operator>>(node<T>& a, node<T>& b)` (lines 286-291): `a.push_back(b)`
— `std::list::push_back(const value_type&)`, which appends a COPY of `b`
made by the copy constructor (lines 69-71: it copies the children list and
the payload) — then returns `a.back()`, a reference to the newly appended
child.  The model returns the updated parent, the state of the source `b`
after the call (`push_back` reads `b` through a const reference and does not
modify it), and the node the returned reference denotes (the parent's last
child). -/
def op_shift (a b : node α) : node α × node α × Option (node α) :=
  (node.mk a.data (a.children ++ [b]), b, (a.children ++ [b]).getLast?)

/-- The concrete five-node tree of the specification's examples: root `A`
with children `[B, C]`, `B` with child `D`, `C` with child `E`.  Values:
A=1, B=2, C=3, D=4, E=5. -/
def exD : node Nat := node.mk 4 []

def exE : node Nat := node.mk 5 []

def exB : node Nat := node.mk 2 [exD]

def exC : node Nat := node.mk 3 [exE]

def exA : node Nat := node.mk 1 [exB, exC]


/-! ### Basic lemmas about the embedding -/

@[simp]
theorem node.data_mk (d : α) (cs : List (node α)) : (node.mk d cs).data = d := rfl

@[simp]
theorem node.children_mk (d : α) (cs : List (node α)) :
    (node.mk d cs).children = cs := rfl

theorem node.eta (n : node α) : node.mk n.data n.children = n := by
  cases n; rfl

theorem size_def (n : node α) : n.size = 1 + sizeList n.children := by
  cases n; simp [node.size]

@[simp]
theorem sizeList_nil : sizeList ([] : List (node α)) = 0 := by
  simp [sizeList]

@[simp]
theorem sizeList_cons (c : node α) (rest : List (node α)) :
    sizeList (c :: rest) = c.size + sizeList rest := by
  simp [sizeList]

@[simp]
theorem sizeList_append (l m : List (node α)) :
    sizeList (l ++ m) = sizeList l + sizeList m := by
  induction l with
  | nil => simp
  | cons c rest ih => simp [ih]; omega

theorem node.size_pos (n : node α) : 0 < n.size := by
  rw [size_def]; omega

theorem sizeList_eq_zero {l : List (node α)} (h : sizeList l = 0) : l = [] := by
  cases l with
  | nil => rfl
  | cons c rest =>
    have := node.size_pos c
    simp at h
    omega

@[simp]
theorem preorderList_nil : preorderList ([] : List (node α)) = [] := by
  simp [preorderList]

@[simp]
theorem preorderList_cons (c : node α) (rest : List (node α)) :
    preorderList (c :: rest) = preorder c ++ preorderList rest := by
  simp [preorderList]

theorem preorderList_append (l m : List (node α)) :
    preorderList (l ++ m) = preorderList l ++ preorderList m := by
  induction l with
  | nil => simp
  | cons c rest ih => simp [ih]

theorem preorder_def (n : node α) :
    preorder n = n :: preorderList n.children := by
  cases n; simp [preorder]

theorem length_preorderList : ∀ (l : List (node α)),
    (preorderList l).length = sizeList l
  | [] => by simp
  | c :: rest => by
    have h1 := length_preorderList c.children
    have h2 := length_preorderList rest
    simp [preorder_def, h1, h2, size_def]
    omega
termination_by l => sizeList l
decreasing_by
  all_goals simp [size_def]
  all_goals omega

theorem self_mem_preorder (n : node α) : n ∈ preorder n := by
  rw [preorder_def]; exact List.mem_cons_self _ _

theorem mem_preorderList {m : node α} {l : List (node α)} :
    m ∈ preorderList l ↔ ∃ c ∈ l, m ∈ preorder c := by
  induction l with
  | nil => simp
  | cons c rest ih => simp [List.mem_append, ih]

theorem mem_preorder {m n : node α} :
    m ∈ preorder n ↔ m = n ∨ m ∈ preorderList n.children := by
  rw [preorder_def]; simp

/-! ### Depth lemmas -/

@[simp]
theorem nodes_at_depth_list_zero (l : List (node α)) :
    nodes_at_depth_list 0 l = l := rfl

@[simp]
theorem nodes_at_depth_list_succ (d : Nat) (l : List (node α)) :
    nodes_at_depth_list (d + 1) l = nodes_at_depth_list d (l.flatMap node.children) := rfl

@[simp]
theorem nodes_at_depth_list_nil : ∀ (d : Nat),
    nodes_at_depth_list d ([] : List (node α)) = []
  | 0 => rfl
  | d + 1 => by simp [nodes_at_depth_list_nil d]

theorem sizeList_flatMap_children (l : List (node α)) :
    sizeList (l.flatMap node.children) + l.length = sizeList l := by
  induction l with
  | nil => simp
  | cons c rest ih =>
    simp [size_def c]
    omega

theorem sizeList_children_lt (c : node α) (cs : List (node α)) :
    sizeList (c.children ++ cs) < sizeList (c :: cs) := by
  simp [size_def c]
  try omega

theorem sizeList_enqueue_lt (c : node α) (cs : List (node α)) :
    sizeList (cs ++ c.children) < sizeList (c :: cs) := by
  simp [size_def c]
  try omega

theorem sizeList_mix_lt (c : node α) (cs ms : List (node α)) :
    sizeList cs + sizeList (ms ++ c.children) < sizeList (c :: cs) + sizeList ms := by
  simp [size_def c]
  try omega

theorem sizeList_flatMap_lt (c : node α) (cs : List (node α)) :
    sizeList ((c :: cs).flatMap node.children) < sizeList (c :: cs) := by
  have h := sizeList_flatMap_children (c :: cs)
  rw [List.length_cons] at h
  omega

theorem mem_preorderList_iff_depth : ∀ (l : List (node α)) (m : node α),
    m ∈ preorderList l ↔ ∃ d, m ∈ nodes_at_depth_list d l
  | [], m => by simp
  | t :: rest, m => by
    have ih := mem_preorderList_iff_depth ((t :: rest).flatMap node.children) m
    constructor
    · intro h
      rw [mem_preorderList] at h
      obtain ⟨c, hc, hm⟩ := h
      rw [mem_preorder] at hm
      cases hm with
      | inl he => exact ⟨0, by simpa [he] using hc⟩
      | inr hdeep =>
        have hmm : m ∈ preorderList ((t :: rest).flatMap node.children) := by
          rw [mem_preorderList]
          rw [mem_preorderList] at hdeep
          obtain ⟨c2, hc2, hm2⟩ := hdeep
          exact ⟨c2, List.mem_flatMap.mpr ⟨c, hc, hc2⟩, hm2⟩
        obtain ⟨d, hd⟩ := ih.mp hmm
        exact ⟨d + 1, by simpa using hd⟩
    · rintro ⟨d, hd⟩
      cases d with
      | zero =>
        simp at hd
        rw [mem_preorderList]
        exact ⟨m, List.mem_cons.mpr hd, self_mem_preorder m⟩
      | succ d =>
        simp at hd
        have hmem := ih.mpr ⟨d, hd⟩
        rw [mem_preorderList] at hmem ⊢
        obtain ⟨c, hc, hm⟩ := hmem
        obtain ⟨c0, hc0, hcc⟩ := List.mem_flatMap.mp hc
        refine ⟨c0, hc0, ?_⟩
        rw [mem_preorder]
        right
        rw [mem_preorderList]
        exact ⟨c, hcc, hm⟩
termination_by l _ => sizeList l
decreasing_by
  exact sizeList_flatMap_lt _ _

/-! ### Traversal lemmas -/

@[simp]
theorem dfs_visit_nil : dfs_iterator.visit (⟨[]⟩ : dfs_iterator α) = [] := by
  simp [dfs_iterator.visit]

theorem dfs_visit_cons (t : node α) (rest : List (node α)) :
    dfs_iterator.visit ⟨t :: rest⟩ = t :: dfs_iterator.visit ⟨t.children ++ rest⟩ := by
  simp [dfs_iterator.visit]

theorem dfs_visit_eq_preorderList : ∀ (l : List (node α)),
    dfs_iterator.visit ⟨l⟩ = preorderList l
  | [] => by simp
  | t :: rest => by
    have ih := dfs_visit_eq_preorderList (t.children ++ rest)
    rw [dfs_visit_cons, ih, preorderList_append]
    simp [preorder_def]
termination_by l => sizeList l
decreasing_by
  exact sizeList_children_lt _ _

@[simp]
theorem bfs_visit_nil : bfs_iterator.visit (⟨[]⟩ : bfs_iterator α) = [] := by
  simp [bfs_iterator.visit]

theorem bfs_visit_cons (t : node α) (rest : List (node α)) :
    bfs_iterator.visit ⟨t :: rest⟩ = t :: bfs_iterator.visit ⟨rest ++ t.children⟩ := by
  simp [bfs_iterator.visit]

theorem bfs_visit_mix : ∀ (l m : List (node α)),
    bfs_iterator.visit ⟨l ++ m⟩
      = l ++ bfs_iterator.visit ⟨m ++ l.flatMap node.children⟩
  | [], m => by simp
  | t :: rest, m => by
    have ih := bfs_visit_mix rest (m ++ t.children)
    rw [List.cons_append, bfs_visit_cons, List.append_assoc, ih]
    simp [List.append_assoc]
termination_by l m => sizeList l + sizeList m
decreasing_by
  exact sizeList_mix_lt _ _ _

theorem bfs_visit_round (l : List (node α)) :
    bfs_iterator.visit ⟨l⟩ = l ++ bfs_iterator.visit ⟨l.flatMap node.children⟩ := by
  have h := bfs_visit_mix l []
  simpa using h

theorem bfs_visit_eq_levels : ∀ (l : List (node α)),
    bfs_iterator.visit ⟨l⟩ = levels l
  | [] => by simp [levels]
  | t :: rest => by
    have ih := bfs_visit_eq_levels ((t :: rest).flatMap node.children)
    rw [bfs_visit_round (t :: rest), ih]
    conv_rhs => rw [levels]
termination_by l => sizeList l
decreasing_by
  exact sizeList_flatMap_lt _ _

theorem bfs_visit_perm_preorderList : ∀ (l : List (node α)),
    (bfs_iterator.visit ⟨l⟩).Perm (preorderList l)
  | [] => by simp
  | t :: rest => by
    have ih := bfs_visit_perm_preorderList (rest ++ t.children)
    have h2 : (bfs_iterator.visit ⟨rest ++ t.children⟩).Perm
        (preorderList t.children ++ preorderList rest) := by
      rw [preorderList_append] at ih
      exact ih.trans List.perm_append_comm
    have h3 := h2.cons t
    rw [bfs_visit_cons, preorderList_cons, preorder_def]
    simpa using h3
termination_by l => sizeList l
decreasing_by
  exact sizeList_enqueue_lt _ _

/-! ### Advancing an iterator to exhaustion -/

theorem dfs_inc_reaches_end : ∀ (N : Nat) (l : List (node α)), sizeList l = N →
    dfs_iterator.inc^[N] ⟨l⟩ = dfs_end
  | 0, l, h => by
    have he : l = [] := sizeList_eq_zero h
    subst he
    rfl
  | N + 1, l, h => by
    cases l with
    | nil =>
      rw [sizeList_nil] at h
      omega
    | cons t rest =>
      rw [Function.iterate_succ_apply]
      have hstep : dfs_iterator.inc ⟨t :: rest⟩ = ⟨t.children ++ rest⟩ := by
        simp [dfs_iterator.inc]
      rw [hstep]
      apply dfs_inc_reaches_end N (t.children ++ rest)
      rw [sizeList_cons, size_def t] at h
      rw [sizeList_append]
      omega

theorem bfs_inc_reaches_end : ∀ (N : Nat) (l : List (node α)), sizeList l = N →
    bfs_iterator.inc^[N] ⟨l⟩ = bfs_end
  | 0, l, h => by
    have he : l = [] := sizeList_eq_zero h
    subst he
    rfl
  | N + 1, l, h => by
    cases l with
    | nil =>
      rw [sizeList_nil] at h
      omega
    | cons t rest =>
      rw [Function.iterate_succ_apply]
      have hstep : bfs_iterator.inc ⟨t :: rest⟩ = ⟨rest ++ t.children⟩ := by
        simp [bfs_iterator.inc]
      rw [hstep]
      apply bfs_inc_reaches_end N (rest ++ t.children)
      rw [sizeList_cons, size_def t] at h
      rw [sizeList_append]
      omega

/-! ### End iterators -/

@[simp]
theorem dfs_end_arrow : (dfs_end : dfs_iterator α).arrow = none := rfl

@[simp]
theorem bfs_end_arrow : (bfs_end : bfs_iterator α).arrow = none := rfl

theorem dfs_inc_end : dfs_iterator.inc (dfs_end : dfs_iterator α) = dfs_end := rfl

theorem bfs_inc_end : bfs_iterator.inc (bfs_end : bfs_iterator α) = bfs_end := rfl

theorem dfs_arrow_eq_none_iff (it : dfs_iterator α) :
    it.arrow = none ↔ it.stack_ = [] := by
  obtain ⟨l⟩ := it
  cases l <;> simp [dfs_iterator.arrow]

theorem bfs_arrow_eq_none_iff (it : bfs_iterator α) :
    it.arrow = none ↔ it.queue_ = [] := by
  obtain ⟨l⟩ := it
  cases l <;> simp [bfs_iterator.arrow]

theorem dfs_iter_eq_end_iff (it : dfs_iterator α) :
    it.iter_eq dfs_end ↔ it.arrow = none := by
  simp [dfs_iterator.iter_eq, dfs_iterator.iter_ne]

theorem bfs_iter_eq_end_iff (it : bfs_iterator α) :
    it.iter_eq bfs_end ↔ it.arrow = none := by
  simp [bfs_iterator.iter_eq, bfs_iterator.iter_ne]

/-! ### Removal lemmas -/

theorem sizeList_own_children_lt (c : node α) (cs : List (node α)) :
    sizeList c.children < sizeList (c :: cs) := by
  simp [size_def c]
  try omega

theorem sizeList_tail_lt (c : node α) (cs : List (node α)) :
    sizeList cs < sizeList (c :: cs) := by
  have := node.size_pos c
  simp
  omega

theorem countP_not_add (p : node α → Bool) (l : List (node α)) :
    l.countP (fun a => ! p a) + l.countP p = l.length := by
  induction l with
  | nil => simp
  | cons a rest ih =>
    by_cases h : p a = true <;> simp [List.countP_cons, h] <;> omega

theorem eq_op_mk_val [DecidableEq α] (c : node α) (v : α) :
    c.eq_op (node.mk v []) = decide (c.data = v) := by
  simp [node.eq_op]

theorem remove_data [DecidableEq α] (v : α) (n : node α) :
    (node.remove_recursive v n).1.data = n.data := by
  cases n
  simp [node.remove_recursive]

theorem remove_recursive_def [DecidableEq α] (v : α) (n : node α) :
    node.remove_recursive v n
      = (node.mk n.data (((remove_recursive_list v n.children).1).filter
          (fun c => ! c.eq_op (node.mk v []))),
         (remove_recursive_list v n.children).2
           + ((remove_recursive_list v n.children).1.length
               - ((remove_recursive_list v n.children).1.filter
                   (fun c => ! c.eq_op (node.mk v []))).length)) := by
  cases n
  simp [node.remove_recursive]

theorem remove_recursive_list_nil [DecidableEq α] (v : α) :
    remove_recursive_list v ([] : List (node α)) = ([], 0) := by
  simp [remove_recursive_list]

theorem remove_recursive_list_cons [DecidableEq α] (v : α) (c : node α)
    (rest : List (node α)) :
    remove_recursive_list v (c :: rest)
      = ((node.remove_recursive v c).1 :: (remove_recursive_list v rest).1,
         (node.remove_recursive v c).2 + (remove_recursive_list v rest).2) := by
  simp [remove_recursive_list]

theorem remove_recursive_list_spec [DecidableEq α] (v : α) : ∀ (l : List (node α)),
    (remove_recursive_list v l).1
        = l.map (fun c => (node.remove_recursive v c).1)
    ∧ l.countP (fun m => decide (m.data = v)) + (remove_recursive_list v l).2
        = (preorderList l).countP (fun m => decide (m.data = v))
    ∧ ∀ c ∈ l, ∀ m ∈ preorderList ((node.remove_recursive v c).1.children),
        ¬ m.data = v
  | [] => by simp [remove_recursive_list_nil]
  | c :: rest => by
    have ihc := remove_recursive_list_spec v c.children
    have ihr := remove_recursive_list_spec v rest
    have hkept : ((remove_recursive_list v c.children).1.filter
          (fun k => ! k.eq_op (node.mk v []))).length
        = c.children.countP (fun m => ! decide (m.data = v)) := by
      rw [← List.countP_eq_length_filter, ihc.1, List.countP_map]
      apply List.countP_congr
      intro x _
      simp [eq_op_mk_val, Function.comp, remove_data]
    have hlen : (remove_recursive_list v c.children).1.length
        = c.children.length := by
      rw [ihc.1, List.length_map]
    have hcount : (node.remove_recursive v c).2
        = (preorderList c.children).countP (fun m => decide (m.data = v)) := by
      rw [remove_recursive_def, hkept, hlen]
      have hna := countP_not_add (fun m => decide (m.data = v)) c.children
      have hb := ihc.2.1
      simp only []
      omega
    refine ⟨?_, ?_, ?_⟩
    · rw [remove_recursive_list_cons, ihr.1, List.map_cons]
    · rw [remove_recursive_list_cons]
      rw [preorderList_cons, List.countP_append, preorder_def c,
        List.countP_cons, List.countP_cons]
      have hb := ihr.2.1
      omega
    · intro c0 hc0 m hm
      cases List.mem_cons.mp hc0 with
      | inl he =>
        subst he
        rw [remove_recursive_def] at hm
        simp only [node.children_mk] at hm
        rw [mem_preorderList] at hm
        obtain ⟨k, hk, hmk⟩ := hm
        rw [List.mem_filter] at hk
        obtain ⟨hk1, hk2⟩ := hk
        rw [eq_op_mk_val] at hk2
        have hkdata : ¬ k.data = v := by simpa using hk2
        rw [mem_preorder] at hmk
        cases hmk with
        | inl hmk => subst hmk; exact hkdata
        | inr hmk =>
          rw [ihc.1] at hk1
          obtain ⟨k0, hk0, hfk⟩ := List.mem_map.mp hk1
          subst hfk
          exact ihc.2.2 k0 hk0 m hmk
      | inr hrest =>
        exact ihr.2.2 c0 hrest m hm
termination_by l => sizeList l
decreasing_by
  · exact sizeList_own_children_lt _ _
  · exact sizeList_tail_lt _ _

theorem remove_recursive_list_noop [DecidableEq α] (v : α) : ∀ (l : List (node α)),
    (∀ m ∈ preorderList l, ¬ m.data = v) → remove_recursive_list v l = (l, 0)
  | [], _ => by simp [remove_recursive_list_nil]
  | c :: rest, h => by
    have hc : node.remove_recursive v c = (c, 0) := by
      have hch : ∀ m ∈ preorderList c.children, ¬ m.data = v := by
        intro m hm
        apply h
        rw [preorderList_cons, List.mem_append, preorder_def c]
        exact Or.inl (List.mem_cons_of_mem _ hm)
      have hlist := remove_recursive_list_noop v c.children hch
      rw [remove_recursive_def, hlist]
      have hfil : c.children.filter (fun k => ! k.eq_op (node.mk v [])) = c.children := by
        rw [List.filter_eq_self]
        intro a ha
        rw [eq_op_mk_val]
        simp only [Bool.not_eq_true']
        simp only [decide_eq_false_iff_not]
        apply hch
        rw [mem_preorderList]
        exact ⟨a, ha, self_mem_preorder a⟩
      rw [hfil]
      simp [node.eta]
    have hrest := remove_recursive_list_noop v rest (by
      intro m hm
      apply h
      rw [preorderList_cons, List.mem_append]
      exact Or.inr hm)
    rw [remove_recursive_list_cons, hc, hrest]
    simp
termination_by l => sizeList l
decreasing_by
  · exact sizeList_own_children_lt _ _
  · exact sizeList_tail_lt _ _

theorem remove_recursive_noop [DecidableEq α] (v : α) (n : node α)
    (h : ∀ m ∈ preorder n, ¬ m.data = v) :
    node.remove_recursive v n = (n, 0) := by
  have hch : ∀ m ∈ preorderList n.children, ¬ m.data = v := by
    intro m hm
    apply h
    rw [preorder_def]
    exact List.mem_cons_of_mem _ hm
  have hlist := remove_recursive_list_noop v n.children hch
  rw [remove_recursive_def, hlist]
  have hfil : n.children.filter (fun k => ! k.eq_op (node.mk v [])) = n.children := by
    rw [List.filter_eq_self]
    intro a ha
    rw [eq_op_mk_val]
    simp only [Bool.not_eq_true']
    simp only [decide_eq_false_iff_not]
    apply hch
    rw [mem_preorderList]
    exact ⟨a, ha, self_mem_preorder a⟩
  rw [hfil]
  simp [node.eta]

theorem prune_def [DecidableEq α] (v : α) (n : node α) :
    prune v n = node.mk n.data (pruneList v n.children) := by
  cases n
  simp [prune]

theorem pruneList_nil [DecidableEq α] (v : α) :
    pruneList v ([] : List (node α)) = [] := by
  simp [pruneList]

theorem pruneList_cons [DecidableEq α] (v : α) (c : node α) (rest : List (node α)) :
    pruneList v (c :: rest)
      = if c.data = v then pruneList v rest else prune v c :: pruneList v rest := by
  simp [pruneList]

theorem remove_keeps_exactly [DecidableEq α] (v : α) : ∀ (l : List (node α)),
    (remove_recursive_list v l).1.filter (fun k => ! k.eq_op (node.mk v []))
      = pruneList v l
  | [] => by simp [remove_recursive_list_nil, pruneList_nil]
  | c :: rest => by
    have ihc := remove_keeps_exactly v c.children
    have ihr := remove_keeps_exactly v rest
    rw [remove_recursive_list_cons]
    have hq : ((node.remove_recursive v c).1.eq_op (node.mk v []))
        = decide (c.data = v) := by
      rw [eq_op_mk_val, remove_data]
    rw [List.filter_cons, hq, pruneList_cons]
    by_cases h : c.data = v
    · simp [h, ihr]
    · have hc1 : (node.remove_recursive v c).1 = prune v c := by
        rw [remove_recursive_def, prune_def]
        simp [ihc]
      simp [h, ihr, hc1]
termination_by l => sizeList l
decreasing_by
  · exact sizeList_own_children_lt _ _
  · exact sizeList_tail_lt _ _

theorem remove_result_eq_prune [DecidableEq α] (v : α) (n : node α) :
    (node.remove_recursive v n).1 = prune v n := by
  rw [remove_recursive_def, prune_def]
  simp [remove_keeps_exactly v n.children]

/-! ### Containment and removal corollaries -/

theorem contains_iff [DecidableEq α] (n : node α) (v : α) :
    n.contains v = true ↔ ∃ c ∈ n.children, c.data = v := by
  simp [node.contains, node.eq_val]

theorem bfs_visit_mem_iff (n m : node α) :
    m ∈ bfs_iterator.visit ⟨[n]⟩ ↔ m ∈ preorder n := by
  have hp := bfs_visit_perm_preorderList [n]
  rw [hp.mem_iff]
  simp

theorem contains_recursive_iff [DecidableEq α] (n : node α) (v : α) :
    n.contains_recursive v = true ↔ ∃ m ∈ preorder n, m.data = v := by
  rw [node.contains_recursive, List.any_eq_true]
  constructor
  · rintro ⟨x, hx, hxv⟩
    refine ⟨x, ?_, by simpa [node.eq_val] using hxv⟩
    rw [← bfs_visit_mem_iff]
    exact hx
  · rintro ⟨m, hm, hmv⟩
    exact ⟨m, (bfs_visit_mem_iff n m).mpr hm, by simp [node.eq_val, hmv]⟩

theorem remove_recursive_count [DecidableEq α] (v : α) (n : node α) :
    (node.remove_recursive v n).2
      = (preorderList n.children).countP (fun m => decide (m.data = v)) := by
  have h := (remove_recursive_list_spec v [n]).2.1
  rw [remove_recursive_list_cons, remove_recursive_list_nil] at h
  rw [preorderList_cons, preorderList_nil, List.append_nil, preorder_def n,
    List.countP_cons, List.countP_cons] at h
  simp at h
  omega

theorem remove_recursive_clean [DecidableEq α] (v : α) (n : node α) :
    ∀ m ∈ preorderList (node.remove_recursive v n).1.children, ¬ m.data = v := by
  have h := (remove_recursive_list_spec v [n]).2.2
  exact h n (by simp)

theorem remove_recursive_contains_recursive_false [DecidableEq α] (v : α)
    (n : node α) (hroot : ¬ n.data = v) :
    (node.remove_recursive v n).1.contains_recursive v = false := by
  cases hb : ((node.remove_recursive v n).1.contains_recursive v) with
  | false => rfl
  | true =>
    exfalso
    obtain ⟨m, hm, hmv⟩ := (contains_recursive_iff _ v).mp hb
    rw [mem_preorder] at hm
    cases hm with
    | inl he =>
      subst he
      rw [remove_data] at hmv
      exact hroot hmv
    | inr hdeep =>
      exact remove_recursive_clean v n m hdeep hmv

/-! ### The claims -/

/-- C1: `remove_recursive(v)` on a node `n` removes every node at every depth
within `n`'s subtree whose value equals `v` — direct children included, `n`
itself never (its payload survives) — and nothing else: the resulting tree is
exactly `n` pruned of its matching descendants' subtrees (`prune`).  It
returns the total number of matching nodes removed, which is the number of
occurrences of `v` in the strict subtree; when `v` occurs nowhere in the
subtree the call is a no-op that returns 0 and leaves the subtree
unchanged. -/
theorem C1_remove_recursive_removes_all [DecidableEq α] (v : α) (n : node α) :
    (node.remove_recursive v n).1.data = n.data
    ∧ (∀ m ∈ preorderList (node.remove_recursive v n).1.children, ¬ m.data = v)
    ∧ (node.remove_recursive v n).1 = prune v n
    ∧ (node.remove_recursive v n).2
        = (preorderList n.children).countP (fun m => decide (m.data = v))
    ∧ ((∀ m ∈ preorder n, ¬ m.data = v) → node.remove_recursive v n = (n, 0)) :=
  ⟨remove_data v n, remove_recursive_clean v n, remove_result_eq_prune v n,
    remove_recursive_count v n, remove_recursive_noop v n⟩

/-- Witness for C1 at `v = 4`, `n = exA`. -/
theorem C1_witness :
    (node.remove_recursive 4 exA).1.data = exA.data
    ∧ (∀ m ∈ preorderList (node.remove_recursive 4 exA).1.children, ¬ m.data = 4)
    ∧ (node.remove_recursive 4 exA).1 = prune 4 exA
    ∧ (node.remove_recursive 4 exA).2
        = (preorderList exA.children).countP (fun m => decide (m.data = 4))
    ∧ ((∀ m ∈ preorder exA, ¬ m.data = 4) → node.remove_recursive 4 exA = (exA, 0)) :=
  C1_remove_recursive_removes_all 4 exA

/-- C2: the DFS iterator from `dfs_begin` dereferences to the root first and
yields the nodes of the subtree in left-to-right pre-order; on the example
tree (root A=1 with children B=2, C=3; B has child D=4, C has child E=5) the
visit order is A, B, D, C, E. -/
theorem C2_dfs_preorder (n : node α) :
    (n.dfs_begin).arrow = some n
    ∧ (n.dfs_begin).visit = preorder n
    ∧ (exA.dfs_begin).visit.map node.data = [1, 2, 4, 3, 5] := by
  refine ⟨rfl, ?_, ?_⟩
  · have h := dfs_visit_eq_preorderList [n]
    simpa [node.dfs_begin] using h
  · have h := dfs_visit_eq_preorderList [exA]
    rw [show exA.dfs_begin = (⟨[exA]⟩ : dfs_iterator Nat) from rfl, h]
    simp [preorder_def, exA, exB, exC, exD, exE]

/-- Witness for C2 at `n = exC`. -/
theorem C2_witness :
    (exC.dfs_begin).arrow = some exC
    ∧ (exC.dfs_begin).visit = preorder exC
    ∧ (exA.dfs_begin).visit.map node.data = [1, 2, 4, 3, 5] :=
  C2_dfs_preorder exC

/-- C3: the BFS iterator from `bfs_begin` dereferences to the root first and
yields the nodes of the subtree in level order (each level left to right,
`levels`), visiting every node of the subtree exactly once; on the example
tree the visit order is A, B, C, D, E. -/
theorem C3_bfs_level_order (n : node α) :
    (n.bfs_begin).arrow = some n
    ∧ (n.bfs_begin).visit = levels [n]
    ∧ ((n.bfs_begin).visit).Perm (preorder n)
    ∧ (exA.bfs_begin).visit.map node.data = [1, 2, 3, 4, 5] := by
  refine ⟨rfl, ?_, ?_, ?_⟩
  · exact bfs_visit_eq_levels [n]
  · have h := bfs_visit_perm_preorderList [n]
    simpa using h
  · rw [show exA.bfs_begin = (⟨[exA]⟩ : bfs_iterator Nat) from rfl]
    simp [bfs_visit_cons, exA, exB, exC, exD, exE]

/-- Witness for C3 at `n = exB`. -/
theorem C3_witness :
    (exB.bfs_begin).arrow = some exB
    ∧ (exB.bfs_begin).visit = levels [exB]
    ∧ ((exB.bfs_begin).visit).Perm (preorder exB)
    ∧ (exA.bfs_begin).visit.map node.data = [1, 2, 3, 4, 5] :=
  C3_bfs_level_order exB

/-- C4: `a == b` holds iff the payloads are equal; the children are excluded,
so any two nodes with the same value compare equal whatever their subtrees. -/
theorem C4_value_only_equality [DecidableEq α] (a b : node α) :
    (node.eq_op a b = true ↔ a.data = b.data)
    ∧ (∀ (d : α) (cs cs2 : List (node α)),
        node.eq_op (node.mk d cs) (node.mk d cs2) = true) := by
  constructor
  · simp [node.eq_op]
  · intro d cs cs2
    simp [node.eq_op]

/-- Witness for C4: two nodes with equal value 1 and different subtrees
compare equal. -/
theorem C4_witness :
    (node.eq_op (node.mk (1:Nat) [node.mk 2 []]) (node.mk 1 []) = true
      ↔ (node.mk (1:Nat) [node.mk 2 []]).data = (node.mk (1:Nat) []).data)
    ∧ (∀ (d : Nat) (cs cs2 : List (node Nat)),
        node.eq_op (node.mk d cs) (node.mk d cs2) = true) :=
  C4_value_only_equality (node.mk 1 [node.mk 2 []]) (node.mk 1 [])

/-- C5: `contains(v)` is a shallow scan — true iff some direct child's value
is `v` (not `n`'s own value, not deeper descendants) — while
`contains_recursive(v)` is true iff `v` is the value of `n` itself or of a
node at some depth of the subtree; on the example tree `A.contains(D)` is
false but `A.contains_recursive(D)` is true. -/
theorem C5_containment [DecidableEq α] (n : node α) (v : α) :
    (n.contains v = true ↔ ∃ c ∈ n.children, c.data = v)
    ∧ (n.contains_recursive v = true ↔ ∃ m ∈ preorder n, m.data = v)
    ∧ (n.contains_recursive v = true
        ↔ ∃ d, ∃ m ∈ n.nodes_at_depth d, m.data = v)
    ∧ exA.contains 4 = false
    ∧ exA.contains_recursive 4 = true := by
  refine ⟨contains_iff n v, contains_recursive_iff n v, ?_, by decide, ?_⟩
  · rw [contains_recursive_iff n v]
    constructor
    · rintro ⟨m, hm, hmv⟩
      have hp : m ∈ preorderList [n] := by simpa using hm
      obtain ⟨d, hd⟩ := (mem_preorderList_iff_depth [n] m).mp hp
      exact ⟨d, m, hd, hmv⟩
    · rintro ⟨d, m, hd, hmv⟩
      have hp := (mem_preorderList_iff_depth [n] m).mpr ⟨d, hd⟩
      refine ⟨m, by simpa using hp, hmv⟩
  · rw [contains_recursive_iff]
    refine ⟨exD, ?_, by simp [exD]⟩
    rw [mem_preorder]
    right
    simp [preorder_def, exA, exB, exC, exD, exE]

/-- Witness for C5 at `n = exA`, `v = 4`. -/
theorem C5_witness :
    ((exA.contains 4 = true ↔ ∃ c ∈ exA.children, c.data = 4)
    ∧ (exA.contains_recursive 4 = true ↔ ∃ m ∈ preorder exA, m.data = 4)
    ∧ (exA.contains_recursive 4 = true
        ↔ ∃ d, ∃ m ∈ exA.nodes_at_depth d, m.data = 4)
    ∧ exA.contains 4 = false
    ∧ exA.contains_recursive 4 = true) :=
  C5_containment exA 4

/-- C6 counterexample: in the subtree `mk 7 [mk 7 []]` the value 7 is present
at two different depths (depth 0, the root, and depth 1), yet
`remove_recursive(7)` returns 1 — the node the call is invoked on is never
removed — and `contains_recursive(7)` still holds afterwards. -/
theorem C6_counterexample :
    ((node.mk (7:Nat) [node.mk 7 []]).nodes_at_depth 0).any
        (fun m => m.eq_val 7) = true
    ∧ ((node.mk (7:Nat) [node.mk 7 []]).nodes_at_depth 1).any
        (fun m => m.eq_val 7) = true
    ∧ (node.remove_recursive 7 (node.mk (7:Nat) [node.mk 7 []])).2 = 1
    ∧ (node.remove_recursive 7 (node.mk (7:Nat) [node.mk 7 []])).1.contains_recursive 7
        = true := by
  refine ⟨by decide, by decide, ?_, ?_⟩
  · simp [remove_recursive_def, remove_recursive_list_cons, remove_recursive_list_nil,
      eq_op_mk_val, List.filter_cons, List.filter_nil]
  · simp [remove_recursive_def, remove_recursive_list_cons, remove_recursive_list_nil,
      eq_op_mk_val, List.filter_cons, List.filter_nil, node.contains_recursive,
      node.bfs_begin, bfs_visit_cons, node.eq_val]

/-- C6 (amended): on every subtree whose root value differs from `X` and in
which exactly two nodes carry the value `X` (both therefore strictly below
the root, at whatever depths), `remove_recursive(X)` returns 2 and afterwards
`contains_recursive(X)` on that subtree is false. -/
theorem C6_remove_twice_then_absent [DecidableEq α] (n : node α) (v : α)
    (hroot : ¬ n.data = v)
    (hcount : (preorderList n.children).countP (fun m => decide (m.data = v)) = 2) :
    (node.remove_recursive v n).2 = 2
    ∧ (node.remove_recursive v n).1.contains_recursive v = false := by
  refine ⟨?_, remove_recursive_contains_recursive_false v n hroot⟩
  rw [remove_recursive_count]
  exact hcount

/-- Witness for C6 (amended): value 7 occurs at depths 1 and 2 of the tree
`mk 1 [mk 7 [], mk 2 [mk 7 []]]`; removal returns 2 and the value is gone. -/
theorem C6_witness :
    (node.remove_recursive 7
        (node.mk (1:Nat) [node.mk 7 [], node.mk 2 [node.mk 7 []]])).2 = 2
    ∧ (node.remove_recursive 7
        (node.mk (1:Nat) [node.mk 7 [], node.mk 2 [node.mk 7 []]])).1.contains_recursive 7
        = false :=
  C6_remove_twice_then_absent (node.mk 1 [node.mk 7 [], node.mk 2 [node.mk 7 []]]) 7
    (by decide)
    (by simp [preorder_def, List.countP_cons])

/-- C7 counterexample: `operator>>` does not move the source node's resources
into the newly appended child: `a.push_back(b)` copies `b`, so after the call
the source still holds its entire subtree — here a non-empty children list —
i.e. no transfer of ownership has taken place. -/
theorem C7_counterexample :
    (op_shift (node.mk (1:Nat) []) (node.mk 2 [node.mk 3 []])).2.1
        = node.mk 2 [node.mk 3 []]
    ∧ ¬ (op_shift (node.mk (1:Nat) []) (node.mk 2 [node.mk 3 []])).2.1.children = [] := by
  refine ⟨rfl, ?_⟩
  simp [op_shift]

/-- C7 (amended): `operator>>` places a COPY of the given subtree under the
new parent (the C++03 copy constructor duplicates the payload and the whole
children list): the parent gains `b` as its last child, the source node is
left unchanged — so the source and the appended copy are independent and no
node ends up owned twice — and the operation returns a reference to the newly
appended child, the parent's last child. -/
theorem C7_append_copies (a b : node α) :
    (op_shift a b).1.data = a.data
    ∧ (op_shift a b).1.children = a.children ++ [b]
    ∧ (op_shift a b).2.1 = b
    ∧ (op_shift a b).2.2 = some b := by
  refine ⟨rfl, rfl, rfl, ?_⟩
  simp [op_shift, List.getLast?_concat]

/-- Witness for C7 at `a = exB`, `b = exC`. -/
theorem C7_witness :
    (op_shift exB exC).1.data = exB.data
    ∧ (op_shift exB exC).1.children = exB.children ++ [exC]
    ∧ (op_shift exB exC).2.1 = exC
    ∧ (op_shift exB exC).2.2 = some exC :=
  C7_append_copies exB exC

/-- C8 counterexample: on an exhausted iterator `operator->` does yield the
well-defined null result, but `operator*` executes `top()` / `front()` on an
empty container — its precondition fails, undefined behaviour — so
dereference through `operator*` does NOT yield a well-defined empty result. -/
theorem C8_counterexample :
    (dfs_end : dfs_iterator Nat).arrow = none
    ∧ ¬ (dfs_end : dfs_iterator Nat).star_ok
    ∧ (bfs_end : bfs_iterator Nat).arrow = none
    ∧ ¬ (bfs_end : bfs_iterator Nat).star_ok := by
  refine ⟨rfl, ?_, rfl, ?_⟩
  · simp [dfs_iterator.star_ok, dfs_end]
  · simp [bfs_iterator.star_ok, bfs_end]

/-- C8 (amended): dereferencing an exhausted DFS or BFS iterator through
`operator->` yields the well-defined null result `none`, and a null
`operator->` is exactly what equality with the end sentinel tests (the
designated end-of-sequence state); `operator*` on an exhausted iterator,
however, fails the emptiness precondition of `top()`/`front()` (undefined
behaviour) instead of yielding an empty result. -/
theorem C8_end_dereference (it : dfs_iterator α) (jt : bfs_iterator α) :
    (it.stack_ = [] → it.arrow = none ∧ ¬ it.star_ok)
    ∧ (it.iter_eq dfs_end ↔ it.arrow = none)
    ∧ (jt.queue_ = [] → jt.arrow = none ∧ ¬ jt.star_ok)
    ∧ (jt.iter_eq bfs_end ↔ jt.arrow = none) := by
  refine ⟨?_, dfs_iter_eq_end_iff it, ?_, bfs_iter_eq_end_iff jt⟩
  · intro h
    obtain ⟨l⟩ := it
    subst h
    exact ⟨rfl, by simp [dfs_iterator.star_ok]⟩
  · intro h
    obtain ⟨l⟩ := jt
    subst h
    exact ⟨rfl, by simp [bfs_iterator.star_ok]⟩

/-- Witness for C8 at the two end iterators over `Nat`. -/
theorem C8_witness :
    ((dfs_end : dfs_iterator Nat).stack_ = []
        → (dfs_end : dfs_iterator Nat).arrow = none
          ∧ ¬ (dfs_end : dfs_iterator Nat).star_ok)
    ∧ ((dfs_end : dfs_iterator Nat).iter_eq dfs_end
        ↔ (dfs_end : dfs_iterator Nat).arrow = none)
    ∧ ((bfs_end : bfs_iterator Nat).queue_ = []
        → (bfs_end : bfs_iterator Nat).arrow = none
          ∧ ¬ (bfs_end : bfs_iterator Nat).star_ok)
    ∧ ((bfs_end : bfs_iterator Nat).iter_eq bfs_end
        ↔ (bfs_end : bfs_iterator Nat).arrow = none) :=
  C8_end_dereference dfs_end bfs_end

/-- C9: advancing a freshly constructed DFS or BFS iterator exactly
`n.size`-many times (the number of nodes in the subtree) reaches the end
sentinel — structurally, hence also under the iterators' own `operator==` —
and advancing a fresh end iterator leaves it equal to itself. -/
theorem C9_iterator_termination (n : node α) :
    dfs_iterator.inc^[n.size] (n.dfs_begin) = dfs_end
    ∧ bfs_iterator.inc^[n.size] (n.bfs_begin) = bfs_end
    ∧ (dfs_iterator.inc^[n.size] (n.dfs_begin)).iter_eq dfs_end
    ∧ (bfs_iterator.inc^[n.size] (n.bfs_begin)).iter_eq bfs_end
    ∧ dfs_iterator.inc (dfs_end : dfs_iterator α) = dfs_end
    ∧ bfs_iterator.inc (bfs_end : bfs_iterator α) = bfs_end := by
  have h1 : sizeList [n] = n.size := by simp
  have hd := dfs_inc_reaches_end n.size [n] h1
  have hb := bfs_inc_reaches_end n.size [n] h1
  refine ⟨hd, hb, ?_, ?_, rfl, rfl⟩
  · rw [show n.dfs_begin = (⟨[n]⟩ : dfs_iterator α) from rfl, hd]
    exact (dfs_iter_eq_end_iff _).mpr rfl
  · rw [show n.bfs_begin = (⟨[n]⟩ : bfs_iterator α) from rfl, hb]
    exact (bfs_iter_eq_end_iff _).mpr rfl

/-- Witness for C9 at `n = exA`. -/
theorem C9_witness :
    dfs_iterator.inc^[exA.size] (exA.dfs_begin) = dfs_end
    ∧ bfs_iterator.inc^[exA.size] (exA.bfs_begin) = bfs_end
    ∧ (dfs_iterator.inc^[exA.size] (exA.dfs_begin)).iter_eq dfs_end
    ∧ (bfs_iterator.inc^[exA.size] (exA.bfs_begin)).iter_eq bfs_end
    ∧ dfs_iterator.inc (dfs_end : dfs_iterator Nat) = dfs_end
    ∧ bfs_iterator.inc (bfs_end : bfs_iterator Nat) = bfs_end :=
  C9_iterator_termination exA

/-- C10: the value returned by `remove_recursive` counts exactly the nodes of
the strict subtree whose value matches — non-matching descendants that vanish
because a matching ancestor was removed are not counted.  Concretely, on
`mk 0 [mk 7 [mk 3 []]]` removing 7 makes two nodes cease to exist (the child
`7` and its non-matching descendant `3`, which disappears from the tree with
it) yet the call returns 1, the number of matching nodes. -/
theorem C10_count_matching_only [DecidableEq α] (v : α) (n : node α) :
    (node.remove_recursive v n).2
        = (preorderList n.children).countP (fun m => decide (m.data = v))
    ∧ (node.remove_recursive 7 (node.mk (0:Nat) [node.mk 7 [node.mk 3 []]])).2 = 1
    ∧ (node.remove_recursive 7 (node.mk (0:Nat) [node.mk 7 [node.mk 3 []]])).1
        = node.mk 0 []
    ∧ (node.mk (0:Nat) [node.mk 7 [node.mk 3 []]]).size
        - (node.remove_recursive 7 (node.mk (0:Nat) [node.mk 7 [node.mk 3 []]])).1.size
        = 2 := by
  refine ⟨remove_recursive_count v n, ?_, ?_, ?_⟩
  · simp [remove_recursive_def, remove_recursive_list_cons, remove_recursive_list_nil,
      eq_op_mk_val, List.filter_cons, List.filter_nil]
  · simp [remove_recursive_def, remove_recursive_list_cons, remove_recursive_list_nil,
      eq_op_mk_val, List.filter_cons, List.filter_nil]
  · simp [remove_recursive_def, remove_recursive_list_cons, remove_recursive_list_nil,
      eq_op_mk_val, List.filter_cons, List.filter_nil, node.size, sizeList]

/-- Witness for C10 at `v = 5`, `n = exC`. -/
theorem C10_witness :
    (node.remove_recursive 5 exC).2
        = (preorderList exC.children).countP (fun m => decide (m.data = 5))
    ∧ (node.remove_recursive 7 (node.mk (0:Nat) [node.mk 7 [node.mk 3 []]])).2 = 1
    ∧ (node.remove_recursive 7 (node.mk (0:Nat) [node.mk 7 [node.mk 3 []]])).1
        = node.mk 0 []
    ∧ (node.mk (0:Nat) [node.mk 7 [node.mk 3 []]]).size
        - (node.remove_recursive 7 (node.mk (0:Nat) [node.mk 7 [node.mk 3 []]])).1.size
        = 2 :=
  C10_count_matching_only 5 exC

end StlTree
